import Mathlib

/-!
Verification of the section parser and related routines of the
streamlitWorkbook repository.

The parser `parse_lesson_sections` (duplicated verbatim in
`src/streamlit_app.py` lines 222-243 and `src/unnamed/part_000` lines
112-134) scans the input line by line, starts a new section at every line
that contains one of nine fixed header substrings, and accumulates the
stripped non-blank lines that follow.  We embed it together with
`initialize_project_structure` (`src/streamlit_app.py` lines 42-53) and the
edit-view reconstruction of the full text (`src/unnamed/part_000` lines
231-234).

Python strings are modelled as Lean `String`s (lists of characters);
`str.strip()` is modelled as stripping the ASCII whitespace characters
space, tab, newline and carriage return from both ends, `str.split('\n')`
as splitting on every `'\n'` keeping empty pieces, `'\n'.join` as
interleaving `'\n'`, and the `section in line` test as substring
containment.  A Python `dict` (insertion ordered, assignment to an existing
key keeps its position) is modelled as an association list with
`dictInsert`.
-/

/-- Whitespace test used by our model of Python `str.strip()`. -/
def pyIsWS (c : Char) : Bool := c = ' ' || c = '\t' || c = '\n' || c = '\r'

/-- Strip whitespace from both ends of a character list. -/
def pyStripL (l : List Char) : List Char :=
  ((l.dropWhile pyIsWS).reverse.dropWhile pyIsWS).reverse

/-- Model of Python `str.strip()`. -/
def pyStrip (s : String) : String := ⟨pyStripL s.data⟩

/-- Split a character list at every newline, keeping empty pieces:
model of Python `str.split('\n')`. -/
def splitNL : List Char → List (List Char)
  | [] => [[]]
  | c :: rest =>
    if c = '\n' then [] :: splitNL rest
    else
      match splitNL rest with
      | [] => [[c]]
      | g :: gs => (c :: g) :: gs

/-- Model of Python `content.split('\n')`. -/
def pySplit (s : String) : List String := (splitNL s.data).map fun g => ⟨g⟩

/-- Interleave a newline between the pieces: model of `'\n'.join`. -/
def joinNL : List (List Char) → List Char
  | [] => []
  | [x] => x
  | x :: y :: rest => x ++ '\n' :: joinNL (y :: rest)

/-- Model of Python `'\n'.join(xs)`. -/
def pyJoinNL (xs : List String) : String := ⟨joinNL (xs.map String.data)⟩

/-- Boolean substring containment: model of Python `p in l` on strings. -/
def containsSub : List Char → List Char → Bool
  | p, [] => p.isEmpty
  | p, c :: t => p.isPrefixOf (c :: t) || containsSub p t

/-- The nine fixed section-header substrings of `parse_lesson_sections`. -/
def HEADERS : List String :=
  ["Overview:", "Learning Objectives:", "Required Materials:",
   "Preparation Steps:", "Lesson Procedure:",
   "Extensions and Modifications:", "Assessment Criteria:",
   "Safety Considerations:", "Take-Home Connection:"]

/-- The test `any(section in line for section in [...])` of the source. -/
def isHeaderLine (line : String) : Bool :=
  HEADERS.any fun s => containsSub s.data line.data

/-- Python dict assignment `m[k] = v`: replace in place if the key is
present, otherwise append at the end (insertion order). -/
def dictInsert (m : List (String × String)) (k v : String) :
    List (String × String) :=
  if m.any fun p => p.1 == k then
    m.map fun p => if p.1 == k then (p.1, v) else p
  else m ++ [(k, v)]

/-- Python dict lookup `m[k]` (with `k in m` as `isSome`). -/
def dictLookup (m : List (String × String)) (k : String) : Option String :=
  (m.find? fun p => p.1 == k).map Prod.snd

/-- The key list of a dict, in insertion order. -/
def dictKeys (m : List (String × String)) : List String := m.map Prod.fst

/-- The loop state of `parse_lesson_sections`: the dict built so far
(`sections`), the current section label (`current_section`, `none` models
Python `None`) and the accumulated content lines (`current_content`). -/
structure ParseState where
  sections : List (String × String)
  current : Option String
  content : List String
deriving DecidableEq

/-- Python truthiness of `current_section` (falsy for `None` and `""`). -/
def currentTruthy : Option String → Bool
  | some k => k != ""
  | none => false

/-- The committed body `'\n'.join(current_content).strip()`. -/
def commitBody (content : List String) : String := pyStrip (pyJoinNL content)

/-- The commit `sections[current_section] = ...` guarded by
`if current_section:` performed when a new header line is met. -/
def commitCurrent (st : ParseState) : List (String × String) :=
  match st.current with
  | some k =>
    if k != "" then dictInsert st.sections k (commitBody st.content)
    else st.sections
  | none => st.sections

/-- One iteration of the `for line in content.split('\n')` loop of
`parse_lesson_sections`. -/
def parseLine (st : ParseState) (line : String) : ParseState :=
  if isHeaderLine line then
    { sections := commitCurrent st, current := some (pyStrip line),
      content := [] }
  else if currentTruthy st.current && pyStrip line != "" then
    { st with content := st.content ++ [pyStrip line] }
  else st

/-- The final commit `if current_section and current_content:` after the
loop. -/
def parseFinish (st : ParseState) : List (String × String) :=
  match st.current with
  | some k =>
    if k != "" && !st.content.isEmpty then
      dictInsert st.sections k (commitBody st.content)
    else st.sections
  | none => st.sections

/-- `parse_lesson_sections` of `src/streamlit_app.py` lines 222-243
(identical in `src/unnamed/part_000` lines 112-134). -/
def parse_lesson_sections (content : String) : List (String × String) :=
  parseFinish ((pySplit content).foldl parseLine ⟨[], none, []⟩)

/-- The edit view's reconstruction of the full text
(`src/unnamed/part_000` lines 231-234): for each entry emit the label,
the stripped body and an empty line, then join everything with newlines. -/
def reconstruct_content (sections : List (String × String)) : String :=
  pyJoinNL ((sections.map fun p => [p.1, pyStrip p.2, ""]).flatten)

/-- One milestone record created by `initialize_project_structure`. -/
structure Milestone where
  step : String
  completed : Bool
  evidence : String
  reflection : String
deriving DecidableEq

/-- `initialize_project_structure` of `src/streamlit_app.py` lines 42-53.
The project data is modelled by its optional `content` field (`none` when
`"content" not in project_data`); the session milestone list is passed in
and the updated list is returned. -/
def initialize_project_structure (content? : Option String)
    (milestones : List Milestone) : List Milestone :=
  match content? with
  | none => milestones
  | some content =>
    let sections := parse_lesson_sections content
    match dictLookup sections "Lesson Procedure:" with
    | none => milestones
    | some procedure =>
      let steps :=
        ((pySplit procedure).filter fun step => pyStrip step != "").map pyStrip
      steps.map fun s => ⟨s, false, "", ""⟩

/-! Basic facts about the line splitter and joiner. -/

theorem splitNL_cons_newline (rest : List Char) :
    splitNL ('\n' :: rest) = [] :: splitNL rest := by
  simp [splitNL]

theorem splitNL_ne_nil (l : List Char) : splitNL l ≠ [] := by
  induction l with
  | nil => simp [splitNL]
  | cons c rest ih =>
    simp only [splitNL]
    split
    · simp
    · split <;> simp

theorem splitNL_cons_other (c : Char) (rest g : List Char)
    (gs : List (List Char)) (hc : c ≠ '\n') (h : splitNL rest = g :: gs) :
    splitNL (c :: rest) = (c :: g) :: gs := by
  simp [splitNL, hc, h]

theorem splitNL_append_newline (x r : List Char) :
    splitNL (x ++ '\n' :: r) = splitNL x ++ splitNL r := by
  induction x with
  | nil => simp [splitNL]
  | cons c x' ih =>
    by_cases hc : c = '\n'
    · subst hc
      rw [List.cons_append, splitNL_cons_newline, splitNL_cons_newline, ih,
        List.cons_append]
    · obtain ⟨g, gs, h⟩ : ∃ g gs, splitNL x' = g :: gs := by
        cases h : splitNL x' with
        | nil => exact absurd h (splitNL_ne_nil x')
        | cons g gs => exact ⟨g, gs, rfl⟩
      have h2 : splitNL (x' ++ '\n' :: r) = (g :: gs) ++ splitNL r := by
        rw [ih, h]
      rw [List.cons_append, splitNL_cons_other c _ _ _ hc h2,
        splitNL_cons_other c _ _ _ hc h, List.cons_append]
      rfl

theorem splitNL_no_newline (x : List Char) (h : '\n' ∉ x) :
    splitNL x = [x] := by
  induction x with
  | nil => rfl
  | cons c x' ih =>
    have hc : c ≠ '\n' := fun hcc => h (hcc ▸ List.mem_cons_self c x')
    have hx' : '\n' ∉ x' := fun hm => h (List.mem_cons_of_mem c hm)
    exact splitNL_cons_other c x' x' [] hc (ih hx')

theorem not_newline_of_mem_splitNL (l : List Char) :
    ∀ g ∈ splitNL l, '\n' ∉ g := by
  induction l with
  | nil =>
    intro g hg
    simp [splitNL] at hg
    simp [hg]
  | cons c rest ih =>
    intro g hg
    by_cases hc : c = '\n'
    · subst hc
      rw [splitNL_cons_newline] at hg
      rcases List.mem_cons.mp hg with rfl | hg
      · simp
      · exact ih g hg
    · obtain ⟨g0, gs, h⟩ : ∃ g0 gs, splitNL rest = g0 :: gs := by
        cases h : splitNL rest with
        | nil => exact absurd h (splitNL_ne_nil rest)
        | cons g0 gs => exact ⟨g0, gs, rfl⟩
      rw [splitNL_cons_other c _ _ _ hc h] at hg
      rcases List.mem_cons.mp hg with rfl | hg
      · intro hm
        rcases List.mem_cons.mp hm with hm | hm
        · exact hc hm.symm
        · exact ih g0 (h ▸ List.mem_cons_self g0 gs) hm
      · exact ih g (h ▸ List.mem_cons_of_mem g0 hg)

theorem splitNL_joinNL (xs : List (List Char)) (h : xs ≠ []) :
    splitNL (joinNL xs) = (xs.map splitNL).flatten := by
  induction xs with
  | nil => exact absurd rfl h
  | cons x rest ih =>
    cases rest with
    | nil => simp [joinNL]
    | cons y rest' =>
      simp only [joinNL, splitNL_append_newline, ih (by simp),
        List.map_cons, List.flatten_cons]

/-! Substring containment agrees with `List.IsInfix`. -/

theorem containsSub_iff (p l : List Char) :
    containsSub p l = true ↔ p <:+: l := by
  induction l with
  | nil =>
    simp only [containsSub, List.isEmpty_iff, List.infix_nil]
  | cons c t ih =>
    simp only [containsSub, Bool.or_eq_true, List.isPrefixOf_iff_prefix, ih,
      List.infix_cons_iff]

/-! Facts about the whitespace stripper. -/

theorem pyStripL_nil : pyStripL [] = [] := rfl

theorem pyStripL_infix_self (l : List Char) : pyStripL l <:+: l := by
  have h1 : (l.dropWhile pyIsWS).reverse.dropWhile pyIsWS <:+
      (l.dropWhile pyIsWS).reverse := List.dropWhile_suffix pyIsWS
  have h2 : pyStripL l <+: l.dropWhile pyIsWS := by
    have := List.reverse_prefix.mpr h1
    rwa [List.reverse_reverse] at this
  exact (h2.isInfix).trans (List.dropWhile_suffix pyIsWS).isInfix

theorem dropWhile_eq_self_of_head (l : List Char) (c : Char)
    (h : l.head? = some c) (hc : pyIsWS c = false) :
    l.dropWhile pyIsWS = l := by
  cases l with
  | nil => rfl
  | cons a t =>
    have : a = c := by simpa using h
    subst this
    exact List.dropWhile_cons_of_neg (by simp [hc])

theorem pyStripL_eq_self (l : List Char) (c d : Char)
    (hh : l.head? = some c) (hc : pyIsWS c = false)
    (hl : l.getLast? = some d) (hd : pyIsWS d = false) :
    pyStripL l = l := by
  unfold pyStripL
  rw [dropWhile_eq_self_of_head l c hh hc]
  rw [dropWhile_eq_self_of_head l.reverse d (by simpa using hl) hd]
  exact List.reverse_reverse l

theorem head?_pyStripL (m : List Char) (c : Char)
    (h : (pyStripL m).head? = some c) : pyIsWS c = false := by
  unfold pyStripL at h
  set y := m.dropWhile pyIsWS with hy
  set z := y.reverse.dropWhile pyIsWS with hz
  rw [List.head?_reverse] at h
  obtain ⟨w, hw⟩ := List.dropWhile_suffix (l := y.reverse) pyIsWS
  have hyy : y.head? = some c := by
    rw [← List.getLast?_reverse, ← hw, List.getLast?_append, h]
    rfl
  have hmm := List.head?_dropWhile_not pyIsWS m
  rw [← hy, hyy] at hmm
  exact hmm

theorem getLast?_pyStripL (m : List Char) (c : Char)
    (h : (pyStripL m).getLast? = some c) : pyIsWS c = false := by
  unfold pyStripL at h
  rw [List.getLast?_reverse] at h
  have := List.head?_dropWhile_not pyIsWS (m.dropWhile pyIsWS).reverse
  rw [h] at this
  exact this

theorem pyStripL_idem (m : List Char) : pyStripL (pyStripL m) = pyStripL m := by
  cases h : pyStripL m with
  | nil => rfl
  | cons a t =>
    have hh : (pyStripL m).head? = some a := by rw [h]; rfl
    have hc := head?_pyStripL m a hh
    have hlne : pyStripL m ≠ [] := by rw [h]; simp
    have hlsome : (pyStripL m).getLast?.isSome := List.getLast?_isSome.mpr hlne
    obtain ⟨d, hd⟩ := Option.isSome_iff_exists.mp hlsome
    have hdc := getLast?_pyStripL m d hd
    rw [← h]
    exact pyStripL_eq_self (pyStripL m) a d hh hc hd hdc

theorem all_ws_of_pyStripL_eq_nil (l : List Char) (h : pyStripL l = []) :
    ∀ c ∈ l, pyIsWS c = true := by
  unfold pyStripL at h
  rw [List.reverse_eq_nil_iff, List.dropWhile_eq_nil_iff] at h
  have hdrop : ∀ c ∈ l.dropWhile pyIsWS, pyIsWS c = true := by
    intro c hc
    exact h c (by simpa using hc)
  intro c hc
  rw [← List.takeWhile_append_dropWhile (p := pyIsWS) (l := l)] at hc
  rcases List.mem_append.mp hc with hc | hc
  · exact List.mem_takeWhile_imp hc
  · exact hdrop c hc

theorem infix_dropWhile_of_head (H l : List Char) (c : Char)
    (hh : H.head? = some c) (hc : pyIsWS c = false) (h : H <:+: l) :
    H <:+: l.dropWhile pyIsWS := by
  induction l with
  | nil => simpa using h
  | cons a t ih =>
    by_cases hp : pyIsWS a
    · rw [List.dropWhile_cons_of_pos hp]
      rcases List.infix_cons_iff.mp h with hpre | hinf
      · rcases List.prefix_cons_iff.mp hpre with rfl | ⟨t', rfl, _⟩
        · simp at hh
        · have : a = c := by simpa using hh
          subst this
          rw [hc] at hp
          exact absurd hp (by simp)
      · exact ih hinf
    · rw [List.dropWhile_cons_of_neg hp]
      exact h

theorem infix_pyStripL (H l : List Char) (c d : Char)
    (hh : H.head? = some c) (hc : pyIsWS c = false)
    (hl : H.getLast? = some d) (hd : pyIsWS d = false)
    (h : H <:+: l) : H <:+: pyStripL l := by
  unfold pyStripL
  have h1 : H <:+: l.dropWhile pyIsWS := infix_dropWhile_of_head H l c hh hc h
  have h2 : H.reverse <:+: (l.dropWhile pyIsWS).reverse :=
    List.reverse_infix.mpr h1
  have h3 : H.reverse <:+: (l.dropWhile pyIsWS).reverse.dropWhile pyIsWS :=
    infix_dropWhile_of_head H.reverse _ d
      (by rw [List.head?_reverse]; exact hl) hd h2
  have h4 := List.reverse_infix.mpr h3
  rwa [List.reverse_reverse] at h4

theorem mem_of_head?_eq_some {α : Type} {l : List α} {c : α}
    (h : l.head? = some c) : c ∈ l := by
  cases l with
  | nil => simp at h
  | cons a t =>
    have : a = c := by simpa using h
    simp [this]

/-! Facts about the nine concrete header strings, checked by computation:
each is a nonempty newline-free string whose first and last characters are
not whitespace. -/

theorem headers_facts : ∀ s ∈ HEADERS,
    s.data ≠ [] ∧ '\n' ∉ s.data ∧
    (s.data.head?.any fun c => !pyIsWS c) = true ∧
    (s.data.getLast?.any fun c => !pyIsWS c) = true := by
  decide

theorem isHeaderLine_iff (line : String) :
    isHeaderLine line = true ↔ ∃ s ∈ HEADERS, s.data <:+: line.data := by
  simp only [isHeaderLine, List.any_eq_true, containsSub_iff]

theorem pyStrip_ne_empty_of_header (line : String)
    (h : isHeaderLine line = true) : pyStrip line ≠ "" := by
  obtain ⟨s, hs, hinf⟩ := (isHeaderLine_iff line).mp h
  obtain ⟨hne, _, hhead, _⟩ := headers_facts s hs
  intro hcontra
  have hdata : pyStripL line.data = [] := congrArg String.data hcontra
  cases hh : s.data.head? with
  | none => exact hne (List.head?_eq_none_iff.mp hh)
  | some c =>
    have hcws : pyIsWS c = false := by
      rw [hh] at hhead
      simpa using hhead
    have hcmem : c ∈ line.data := hinf.subset (mem_of_head?_eq_some hh)
    have := all_ws_of_pyStripL_eq_nil line.data hdata c hcmem
    rw [hcws] at this
    exact absurd this (by simp)

theorem not_header_of_strip_empty (line : String) (h : pyStrip line = "") :
    isHeaderLine line = false := by
  cases hh : isHeaderLine line
  · rfl
  · exact absurd h (pyStrip_ne_empty_of_header line hh)

theorem isHeaderLine_pyStrip (line : String) (h : isHeaderLine line = true) :
    isHeaderLine (pyStrip line) = true := by
  obtain ⟨s, hs, hinf⟩ := (isHeaderLine_iff line).mp h
  obtain ⟨hne, _, hhead, hlast⟩ := headers_facts s hs
  cases hh : s.data.head? with
  | none => exact absurd (List.head?_eq_none_iff.mp hh) hne
  | some c =>
    cases hl : s.data.getLast? with
    | none => exact absurd ( List.getLast?_eq_none_iff.mp hl) hne
    | some d =>
      have hcws : pyIsWS c = false := by
        rw [hh] at hhead
        simpa using hhead
      have hdws : pyIsWS d = false := by
        rw [hl] at hlast
        simpa using hlast
      exact (isHeaderLine_iff (pyStrip line)).mpr
        ⟨s, hs, infix_pyStripL s.data line.data c d hh hcws hl hdws hinf⟩

theorem not_isHeaderLine_pyStrip (line : String)
    (h : isHeaderLine line = false) :
    isHeaderLine (pyStrip line) = false := by
  cases hh : isHeaderLine (pyStrip line)
  · rfl
  · obtain ⟨s, hs, hinf⟩ := (isHeaderLine_iff (pyStrip line)).mp hh
    have h2 : s.data <:+: line.data := hinf.trans (pyStripL_infix_self line.data)
    have h3 : isHeaderLine line = true :=
      (isHeaderLine_iff line).mpr ⟨s, hs, h2⟩
    rw [h] at h3
    exact absurd h3 (by simp)

/-! String-level corollaries. -/

theorem string_eq_iff_data (s t : String) : s = t ↔ s.data = t.data :=
  ⟨congrArg String.data, fun h => by cases s; cases t; cases h; rfl⟩

theorem pyStrip_idem (s : String) : pyStrip (pyStrip s) = pyStrip s := by
  rw [string_eq_iff_data]
  exact pyStripL_idem s.data

/-! The stripped join of nonempty stripped lines is itself a strip
fixpoint, so the final `.strip()` of a committed body is a no-op. -/

theorem joinNL_head? (x : List Char) (rest : List (List Char)) (hx : x ≠ []) :
    (joinNL (x :: rest)).head? = x.head? := by
  cases rest with
  | nil => rfl
  | cons y rest' =>
    cases hh : x.head? with
    | none => exact absurd (List.head?_eq_none_iff.mp hh) hx
    | some a =>
      show (x ++ '\n' :: joinNL (y :: rest')).head? = some a
      rw [List.head?_append, hh]
      rfl

theorem joinNL_getLast? (xs : List (List Char)) (z : List Char)
    (hz : xs.getLast? = some z) (hzne : z ≠ []) :
    (joinNL xs).getLast? = z.getLast? := by
  induction xs with
  | nil => simp at hz
  | cons x rest ih =>
    cases rest with
    | nil =>
      have : x = z := by simpa using hz
      subst this
      rfl
    | cons y rest' =>
      have hz' : (y :: rest').getLast? = some z := by
        rw [← List.getLast?_cons_cons (a := x)]
        exact hz
      have hJ : (joinNL (y :: rest')).getLast? = z.getLast? := ih hz'
      cases he : z.getLast? with
      | none => exact absurd (List.getLast?_eq_none_iff.mp he) hzne
      | some e =>
        show (x ++ '\n' :: joinNL (y :: rest')).getLast? = some e
        rw [List.getLast?_append]
        rw [show ('\n' :: joinNL (y :: rest')) = ['\n'] ++ joinNL (y :: rest')
          from rfl, List.getLast?_append, hJ, he]
        rfl

theorem pyStripL_joinNL_good (xs : List (List Char)) (hne : xs ≠ [])
    (h : ∀ x ∈ xs, pyStripL x = x ∧ x ≠ []) :
    pyStripL (joinNL xs) = joinNL xs := by
  cases xs with
  | nil => exact absurd rfl hne
  | cons x rest =>
    have hx := h x (List.mem_cons_self x rest)
    cases hh : x.head? with
    | none => exact absurd (List.head?_eq_none_iff.mp hh) hx.2
    | some c =>
      have hhead : (joinNL (x :: rest)).head? = some c := by
        rw [joinNL_head? x rest hx.2, hh]
      have hcws : pyIsWS c = false := by
        apply head?_pyStripL x
        rw [hx.1, hh]
      obtain ⟨z, hz⟩ := Option.isSome_iff_exists.mp
        (List.getLast?_isSome.mpr (List.cons_ne_nil x rest))
      have hzmem : z ∈ x :: rest := List.mem_of_getLast?_eq_some hz
      have hzgood := h z hzmem
      cases hl : z.getLast? with
      | none => exact absurd (List.getLast?_eq_none_iff.mp hl) hzgood.2
      | some d =>
        have hlast : (joinNL (x :: rest)).getLast? = some d := by
          rw [joinNL_getLast? (x :: rest) z hz hzgood.2, hl]
        have hdws : pyIsWS d = false := by
          apply getLast?_pyStripL z
          rw [hzgood.1, hl]
        exact pyStripL_eq_self (joinNL (x :: rest)) c d hhead hcws hlast hdws

/-- Intended shape of a content line appended by the parser loop: it is a
strip fixpoint, non-blank, not a header line, and newline-free. -/
def goodLine (l : String) : Prop :=
  pyStrip l = l ∧ l ≠ "" ∧ isHeaderLine l = false ∧ '\n' ∉ l.data

instance (l : String) : Decidable (goodLine l) := by
  unfold goodLine
  infer_instance

theorem commitBody_good (content : List String)
    (h : ∀ l ∈ content, goodLine l) (hne : content ≠ []) :
    commitBody content = pyJoinNL content := by
  unfold commitBody
  rw [string_eq_iff_data]
  show pyStripL (joinNL (content.map String.data)) =
    joinNL (content.map String.data)
  apply pyStripL_joinNL_good
  · simpa using hne
  · intro x hx
    obtain ⟨l, hl, rfl⟩ := List.mem_map.mp hx
    obtain ⟨h1, h2, _, _⟩ := h l hl
    constructor
    · exact congrArg String.data h1
    · intro hnil
      apply h2
      rw [string_eq_iff_data]
      exact hnil

theorem commitBody_nil : commitBody [] = "" := rfl

/-! Unfolding lemmas for the parser loop. -/

theorem currentTruthy_some (k : String) (h : k ≠ "") :
    currentTruthy (some k) = true := by
  simp [currentTruthy, h]

theorem parseLine_header (st : ParseState) (line : String)
    (h : isHeaderLine line = true) :
    parseLine st line =
      ⟨commitCurrent st, some (pyStrip line), []⟩ := by
  simp [parseLine, h]

theorem parseLine_content (st : ParseState) (line : String)
    (h : isHeaderLine line = false) (hcur : currentTruthy st.current = true)
    (hline : pyStrip line ≠ "") :
    parseLine st line = { st with content := st.content ++ [pyStrip line] } := by
  simp [parseLine, h, hcur, hline]

theorem parseLine_skip_none (secs : List (String × String))
    (cont : List String) (line : String) (h : isHeaderLine line = false) :
    parseLine ⟨secs, none, cont⟩ line = ⟨secs, none, cont⟩ := by
  simp [parseLine, h, currentTruthy]

theorem parseLine_skip_blank (st : ParseState) (line : String)
    (h : isHeaderLine line = false) (hline : pyStrip line = "") :
    parseLine st line = st := by
  simp [parseLine, h, hline]

theorem commitCurrent_some (secs : List (String × String)) (k : String)
    (cont : List String) (hk : k ≠ "") :
    commitCurrent ⟨secs, some k, cont⟩ = dictInsert secs k (commitBody cont) := by
  simp [commitCurrent, hk]

/-- The content lines a header-free block contributes: the stripped forms
of its non-blank lines. -/
def collectLines (block : List String) : List String :=
  (block.filter fun l => pyStrip l != "").map pyStrip

theorem foldl_no_current (pre : List String) (secs : List (String × String))
    (cont : List String) (hpre : ∀ l ∈ pre, isHeaderLine l = false) :
    pre.foldl parseLine ⟨secs, none, cont⟩ = ⟨secs, none, cont⟩ := by
  induction pre with
  | nil => rfl
  | cons l rest ih =>
    rw [List.foldl_cons,
      parseLine_skip_none secs cont l (hpre l (List.mem_cons_self l rest))]
    exact ih fun x hx => hpre x (List.mem_cons_of_mem l hx)

theorem foldl_block (block : List String) :
    ∀ (secs : List (String × String)) (k : String) (cont : List String),
    k ≠ "" → (∀ l ∈ block, isHeaderLine l = false) →
    block.foldl parseLine ⟨secs, some k, cont⟩ =
      ⟨secs, some k, cont ++ collectLines block⟩ := by
  induction block with
  | nil => intro secs k cont _ _; simp [collectLines]
  | cons l rest ih =>
    intro secs k cont hk hblock
    have hl := hblock l (List.mem_cons_self l rest)
    have hrest : ∀ x ∈ rest, isHeaderLine x = false :=
      fun x hx => hblock x (List.mem_cons_of_mem l hx)
    by_cases hb : pyStrip l = ""
    · rw [List.foldl_cons, parseLine_skip_blank _ l hl hb, ih secs k cont hk hrest]
      simp [collectLines, List.filter_cons, hb]
    · rw [List.foldl_cons,
        parseLine_content _ l hl (currentTruthy_some k hk) hb,
        ih secs k (cont ++ [pyStrip l]) hk hrest]
      simp only [collectLines, List.filter_cons]
      rw [if_pos (by simpa using hb)]
      simp [List.append_assoc]

/-! Dict lemmas. -/

theorem dictKeys_append (m n : List (String × String)) :
    dictKeys (m ++ n) = dictKeys m ++ dictKeys n := List.map_append _ m n

theorem dictInsert_fresh (m : List (String × String)) (k v : String)
    (h : k ∉ dictKeys m) : dictInsert m k v = m ++ [(k, v)] := by
  unfold dictInsert
  rw [if_neg]
  intro hany
  obtain ⟨p, hp, hpk⟩ := List.any_eq_true.mp hany
  exact h (beq_iff_eq.mp hpk ▸ List.mem_map_of_mem Prod.fst hp)

theorem dictInsert_keys_of_mem (m : List (String × String)) (k v : String)
    (h : k ∈ dictKeys m) :
    dictInsert m k v = m.map fun p => if p.1 == k then (p.1, v) else p := by
  unfold dictInsert
  rw [if_pos]
  obtain ⟨p, hp, hpk⟩ := List.mem_map.mp h
  exact List.any_eq_true.mpr ⟨p, hp, beq_iff_eq.mpr hpk⟩

/-! The state machine applied to a structured tail of sections. -/

/-- The sections committed when the machine continues from active label
`k` with accumulated content `cont` through the listed
(header line, body block) sections. -/
def entriesOf : String → List String → List (String × List String) →
    List (String × String)
  | k, cont, [] => if cont.isEmpty then [] else [(k, commitBody cont)]
  | k, cont, (hd, blk) :: rest =>
    (k, commitBody cont) :: entriesOf (pyStrip hd) (collectLines blk) rest

theorem foldl_sections (secs : List (String × List String)) :
    ∀ (m : List (String × String)) (k : String) (cont : List String),
    k ≠ "" →
    (∀ p ∈ secs, isHeaderLine p.1 = true ∧ ∀ l ∈ p.2, isHeaderLine l = false) →
    (dictKeys m ++ k :: secs.map fun p => pyStrip p.1).Nodup →
    parseFinish
      (((secs.map fun p => p.1 :: p.2).flatten).foldl parseLine
        ⟨m, some k, cont⟩) = m ++ entriesOf k cont secs := by
  induction secs with
  | nil =>
    intro m k cont hk _ hnodup
    obtain ⟨_, _, hdisj⟩ := List.nodup_append.mp hnodup
    have hkm : k ∉ dictKeys m := fun hmem =>
      hdisj hmem (List.mem_cons_self k _)
    simp only [List.map_nil, List.flatten_nil, List.foldl_nil]
    by_cases hc : cont.isEmpty
    · simp [parseFinish, entriesOf, hc]
    · have hc' : cont.isEmpty = false := by simpa using hc
      have hcond : (k != "" && !cont.isEmpty) = true := by
        simp [bne_iff_ne, hk, hc']
      show (if k != "" && !cont.isEmpty then dictInsert m k (commitBody cont)
        else m) = m ++ entriesOf k cont []
      rw [if_pos hcond]
      show dictInsert m k (commitBody cont) =
        m ++ (if cont.isEmpty then [] else [(k, commitBody cont)])
      rw [hc', if_neg Bool.false_ne_true]
      exact dictInsert_fresh m k (commitBody cont) hkm
  | cons sec rest ih =>
    intro m k cont hk hgood hnodup
    obtain ⟨hd, blk⟩ := sec
    have hhd : isHeaderLine hd = true := (hgood _ (List.mem_cons_self _ _)).1
    have hblk : ∀ l ∈ blk, isHeaderLine l = false :=
      (hgood _ (List.mem_cons_self _ _)).2
    have hgoodrest : ∀ p ∈ rest,
        isHeaderLine p.1 = true ∧ ∀ l ∈ p.2, isHeaderLine l = false :=
      fun p hp => hgood p (List.mem_cons_of_mem _ hp)
    simp only [List.map_cons] at hnodup
    obtain ⟨_, _, hdisj⟩ := List.nodup_append.mp hnodup
    have hkm : k ∉ dictKeys m := fun hmem =>
      hdisj hmem (List.mem_cons_self k _)
    have hstrip_ne : pyStrip hd ≠ "" := pyStrip_ne_empty_of_header hd hhd
    have hnodup' : (dictKeys (m ++ [(k, commitBody cont)]) ++
        pyStrip hd :: rest.map fun p => pyStrip p.1).Nodup := by
      rw [dictKeys_append]
      have hk1 : dictKeys [(k, commitBody cont)] = [k] := rfl
      rw [hk1, List.append_assoc]
      simpa using hnodup
    simp only [List.map_cons, List.flatten_cons]
    rw [List.cons_append, List.foldl_cons, List.foldl_append,
      parseLine_header _ hd hhd, commitCurrent_some m k cont hk,
      dictInsert_fresh m k _ hkm,
      foldl_block blk _ (pyStrip hd) [] hstrip_ne hblk,
      List.nil_append,
      ih (m ++ [(k, commitBody cont)]) (pyStrip hd) (collectLines blk)
        hstrip_ne hgoodrest hnodup']
    simp [entriesOf, List.append_assoc]

theorem parse_structured (pre : List String) (hd1 : String)
    (blk1 : List String) (secs : List (String × List String)) (t : String)
    (ht : pySplit t =
      pre ++ hd1 :: (blk1 ++ (secs.map fun p => p.1 :: p.2).flatten))
    (hpre : ∀ l ∈ pre, isHeaderLine l = false)
    (hh1 : isHeaderLine hd1 = true)
    (hblk1 : ∀ l ∈ blk1, isHeaderLine l = false)
    (hsecs : ∀ p ∈ secs,
      isHeaderLine p.1 = true ∧ ∀ l ∈ p.2, isHeaderLine l = false)
    (hnodup : (pyStrip hd1 :: secs.map fun p => pyStrip p.1).Nodup) :
    parse_lesson_sections t = entriesOf (pyStrip hd1) (collectLines blk1) secs := by
  unfold parse_lesson_sections
  have hne : pyStrip hd1 ≠ "" := pyStrip_ne_empty_of_header hd1 hh1
  rw [ht, List.foldl_append, foldl_no_current pre [] [] hpre, List.foldl_cons,
    parseLine_header _ hd1 hh1,
    show commitCurrent ⟨[], none, []⟩ = [] from rfl,
    List.foldl_append, foldl_block blk1 [] (pyStrip hd1) [] hne hblk1,
    List.nil_append]
  exact foldl_sections secs [] (pyStrip hd1) (collectLines blk1) hne hsecs
    (by rw [show dictKeys ([] : List (String × String)) = [] from rfl,
      List.nil_append]; exact hnodup)

/-! The shape invariant of everything the parser produces. -/

/-- Shape of an entry of the produced dict: the key is a stripped nonempty
header line and the body is either empty or a newline-join of good content
lines. -/
def goodEntry (p : String × String) : Prop :=
  pyStrip p.1 = p.1 ∧ p.1 ≠ "" ∧ isHeaderLine p.1 = true ∧ '\n' ∉ p.1.data ∧
  (p.2 = "" ∨ ∃ ls, ls ≠ [] ∧ (∀ l ∈ ls, goodLine l) ∧ p.2 = pyJoinNL ls)

/-- Invariant maintained by the parser loop. -/
def goodState (st : ParseState) : Prop :=
  (∀ p ∈ st.sections, goodEntry p) ∧ (dictKeys st.sections).Nodup ∧
  (∀ k, st.current = some k →
    pyStrip k = k ∧ k ≠ "" ∧ isHeaderLine k = true ∧ '\n' ∉ k.data) ∧
  (∀ l ∈ st.content, goodLine l)

theorem parseLine_skip_falsy (st : ParseState) (line : String)
    (h : isHeaderLine line = false) (hcur : currentTruthy st.current = false) :
    parseLine st line = st := by
  simp [parseLine, h, hcur]

theorem dictInsert_good (m : List (String × String)) (k v : String)
    (hm : ∀ p ∈ m, goodEntry p) (hkv : goodEntry (k, v)) :
    ∀ p ∈ dictInsert m k v, goodEntry p := by
  unfold dictInsert
  split
  · intro p hp
    obtain ⟨q, hq, rfl⟩ := List.mem_map.mp hp
    by_cases hqk : q.1 == k
    · rw [if_pos hqk]
      have hq1 : q.1 = k := beq_iff_eq.mp hqk
      have := hm q hq
      exact ⟨this.1, this.2.1, this.2.2.1, this.2.2.2.1,
        hq1 ▸ hkv.2.2.2.2⟩
    · rw [if_neg hqk]
      exact hm q hq
  · intro p hp
    rcases List.mem_append.mp hp with hp | hp
    · exact hm p hp
    · have : p = (k, v) := by simpa using hp
      exact this ▸ hkv

theorem dictInsert_nodup (m : List (String × String)) (k v : String)
    (h : (dictKeys m).Nodup) : (dictKeys (dictInsert m k v)).Nodup := by
  unfold dictInsert
  split
  · show ((m.map fun p => if p.1 == k then (p.1, v) else p).map Prod.fst).Nodup
    rw [List.map_map]
    have heq : (Prod.fst ∘ fun p : String × String =>
        if p.1 == k then (p.1, v) else p) = Prod.fst := by
      funext p
      show (if p.1 == k then (p.1, v) else p).1 = p.1
      split <;> rfl
    rw [heq]
    exact h
  · rename_i hany
    have hkm : k ∉ dictKeys m := by
      intro hmem
      apply hany
      obtain ⟨p, hp, hpk⟩ := List.mem_map.mp hmem
      exact List.any_eq_true.mpr ⟨p, hp, beq_iff_eq.mpr hpk⟩
    rw [show dictKeys (m ++ [(k, v)]) = dictKeys m ++ [k] from
      List.map_append _ m [(k, v)]]
    rw [List.nodup_append]
    exact ⟨h, List.nodup_singleton k, by
      intro a ha hb
      have : a = k := by simpa using hb
      exact hkm (this ▸ ha)⟩

theorem commitBody_good_entry (k : String) (cont : List String)
    (hcont : ∀ l ∈ cont, goodLine l)
    (hk : pyStrip k = k ∧ k ≠ "" ∧ isHeaderLine k = true ∧ '\n' ∉ k.data) :
    goodEntry (k, commitBody cont) := by
  refine ⟨hk.1, hk.2.1, hk.2.2.1, hk.2.2.2, ?_⟩
  cases cont with
  | nil => exact Or.inl rfl
  | cons l rest =>
    exact Or.inr ⟨l :: rest, by simp, hcont,
      commitBody_good (l :: rest) hcont (by simp)⟩

theorem commitCurrent_goodState (st : ParseState) (hst : goodState st) :
    (∀ p ∈ commitCurrent st, goodEntry p) ∧
    (dictKeys (commitCurrent st)).Nodup := by
  cases hcur : st.current with
  | none =>
    have : commitCurrent st = st.sections := by
      unfold commitCurrent
      rw [hcur]
    rw [this]
    exact ⟨hst.1, hst.2.1⟩
  | some k =>
    have hcc : commitCurrent st =
        if k != "" then dictInsert st.sections k (commitBody st.content)
        else st.sections := by
      unfold commitCurrent
      rw [hcur]
    rw [hcc]
    split
    · exact ⟨dictInsert_good _ _ _ hst.1
        (commitBody_good_entry k st.content hst.2.2.2 (hst.2.2.1 k hcur)),
        dictInsert_nodup _ _ _ hst.2.1⟩
    · exact ⟨hst.1, hst.2.1⟩

theorem goodLine_pyStrip (line : String) (hh : isHeaderLine line = false)
    (hb : pyStrip line ≠ "") (hnl : '\n' ∉ line.data) :
    goodLine (pyStrip line) := by
  refine ⟨pyStrip_idem line, hb ∘ ?_, not_isHeaderLine_pyStrip line hh, ?_⟩
  · intro h
    exact h
  · intro hmem
    exact hnl ((pyStripL_infix_self line.data).subset hmem)

theorem goodState_step (st : ParseState) (line : String) (hst : goodState st)
    (hline : '\n' ∉ line.data) : goodState (parseLine st line) := by
  by_cases hh : isHeaderLine line = true
  · rw [parseLine_header st line hh]
    refine ⟨(commitCurrent_goodState st hst).1,
      (commitCurrent_goodState st hst).2, ?_, by simp⟩
    intro k hk
    have : k = pyStrip line := by simpa using hk.symm
    subst this
    exact ⟨pyStrip_idem line, pyStrip_ne_empty_of_header line hh,
      isHeaderLine_pyStrip line hh,
      fun hmem => hline ((pyStripL_infix_self line.data).subset hmem)⟩
  · have hh' : isHeaderLine line = false := by simpa using hh
    by_cases hct : currentTruthy st.current = true
    · by_cases hb : pyStrip line = ""
      · rw [parseLine_skip_blank st line hh' hb]
        exact hst
      · rw [parseLine_content st line hh' hct hb]
        refine ⟨hst.1, hst.2.1, hst.2.2.1, ?_⟩
        intro l hl
        rcases List.mem_append.mp hl with hl | hl
        · exact hst.2.2.2 l hl
        · have : l = pyStrip line := by simpa using hl
          exact this ▸ goodLine_pyStrip line hh' hb hline
    · rw [parseLine_skip_falsy st line hh' (by simpa using hct)]
      exact hst

theorem goodState_foldl (lines : List String) :
    ∀ st, goodState st → (∀ l ∈ lines, '\n' ∉ l.data) →
    goodState (lines.foldl parseLine st) := by
  induction lines with
  | nil => intro st h _; exact h
  | cons l rest ih =>
    intro st h hnl
    rw [List.foldl_cons]
    exact ih _ (goodState_step st l h (hnl l (List.mem_cons_self l rest)))
      fun x hx => hnl x (List.mem_cons_of_mem l hx)

theorem parseFinish_good (st : ParseState) (hst : goodState st) :
    (∀ p ∈ parseFinish st, goodEntry p) ∧
    (dictKeys (parseFinish st)).Nodup := by
  cases hcur : st.current with
  | none =>
    have : parseFinish st = st.sections := by
      unfold parseFinish
      rw [hcur]
    rw [this]
    exact ⟨hst.1, hst.2.1⟩
  | some k =>
    have hpf : parseFinish st =
        if k != "" && !st.content.isEmpty then
          dictInsert st.sections k (commitBody st.content)
        else st.sections := by
      unfold parseFinish
      rw [hcur]
    rw [hpf]
    split
    · exact ⟨dictInsert_good _ _ _ hst.1
        (commitBody_good_entry k st.content hst.2.2.2 (hst.2.2.1 k hcur)),
        dictInsert_nodup _ _ _ hst.2.1⟩
    · exact ⟨hst.1, hst.2.1⟩

theorem parse_good (t : String) :
    (∀ p ∈ parse_lesson_sections t, goodEntry p) ∧
    (dictKeys (parse_lesson_sections t)).Nodup := by
  unfold parse_lesson_sections
  apply parseFinish_good
  apply goodState_foldl
  · exact ⟨by simp, by simp [dictKeys], by simp, by simp⟩
  · intro l hl
    obtain ⟨g, hg, rfl⟩ := List.mem_map.mp hl
    exact not_newline_of_mem_splitNL t.data g hg

/-! Re-parsing a reconstructed document. -/

theorem pySplit_no_newline (s : String) (h : '\n' ∉ s.data) :
    pySplit s = [s] := by
  unfold pySplit
  rw [splitNL_no_newline s.data h]
  rfl

theorem pySplit_ne_nil (s : String) : pySplit s ≠ [] := by
  unfold pySplit
  intro h
  cases hs : splitNL s.data with
  | nil => exact splitNL_ne_nil s.data hs
  | cons g gs =>
    rw [hs] at h
    simp at h

theorem pySplit_joinNL (xs : List String) (hne : xs ≠ []) :
    pySplit (pyJoinNL xs) = (xs.map pySplit).flatten := by
  unfold pySplit pyJoinNL
  show ((splitNL (joinNL (xs.map String.data))).map fun g => (⟨g⟩ : String)) =
    ((xs.map fun s => (splitNL s.data).map fun g => (⟨g⟩ : String))).flatten
  rw [splitNL_joinNL _ (by simpa using hne), List.map_flatten,
    List.map_map, List.map_map]
  rfl

theorem flatten_map_singleton {α : Type} (l : List α) :
    (l.map fun a => [a]).flatten = l := by
  induction l with
  | nil => rfl
  | cons a t ih =>
    rw [List.map_cons, List.flatten_cons, ih]
    rfl

theorem goodBody_split (ls : List String) (hne : ls ≠ [])
    (hgood : ∀ l ∈ ls, goodLine l) : pySplit (pyJoinNL ls) = ls := by
  rw [pySplit_joinNL ls hne]
  have h1 : ls.map pySplit = ls.map fun l => [l] :=
    List.map_congr_left fun l hl => pySplit_no_newline l (hgood l hl).2.2.2
  rw [h1, flatten_map_singleton]

theorem goodEntry_body (k b : String) (h : goodEntry (k, b)) (hb : b ≠ "") :
    pyStrip b = b ∧ (∀ l ∈ pySplit b, goodLine l) ∧
    commitBody (pySplit b) = b := by
  rcases h.2.2.2.2 with hb' | ⟨ls, hlsne, hlsgood, hbeq⟩
  · exact absurd hb' hb
  · subst hbeq
    have hsplit : pySplit (pyJoinNL ls) = ls := goodBody_split ls hlsne hlsgood
    have hstrip : pyStrip (pyJoinNL ls) = pyJoinNL ls := by
      have hcb := commitBody_good ls hlsgood hlsne
      unfold commitBody at hcb
      exact hcb
    refine ⟨hstrip, ?_, ?_⟩
    · rw [hsplit]
      exact hlsgood
    · rw [hsplit]
      exact commitBody_good ls hlsgood hlsne

theorem isHeaderLine_empty : isHeaderLine "" = false := by decide

theorem collectLines_good (ls : List String) (h : ∀ l ∈ ls, goodLine l) :
    collectLines (ls ++ [""]) = ls := by
  unfold collectLines
  rw [List.filter_append]
  have h1 : ls.filter (fun l => pyStrip l != "") = ls := by
    rw [List.filter_eq_self]
    intro l hl
    have := h l hl
    rw [bne_iff_ne, this.1]
    exact this.2.1
  have h2 : ([""] : List String).filter (fun l => pyStrip l != "") = [] := by
    decide
  rw [h1, h2, List.append_nil,
    show ls.map pyStrip = ls.map id from
      List.map_congr_left fun l hl => (h l hl).1,
    List.map_id]

theorem entriesOf_rebuild : ∀ (es : List (String × String)) (k b : String),
    goodEntry (k, b) → b ≠ "" → (∀ p ∈ es, goodEntry p ∧ p.2 ≠ "") →
    entriesOf k (pySplit b) (es.map fun p => (p.1, pySplit p.2 ++ [""])) =
      (k, b) :: es := by
  intro es
  induction es with
  | nil =>
    intro k b hkb hb _
    have h1 : (pySplit b).isEmpty = false := by
      cases hs : pySplit b with
      | nil => exact absurd hs (pySplit_ne_nil b)
      | cons x t => rfl
    show (if (pySplit b).isEmpty then []
      else [(k, commitBody (pySplit b))]) = [(k, b)]
    rw [h1, if_neg Bool.false_ne_true, (goodEntry_body k b hkb hb).2.2]
  | cons p rest ih =>
    intro k b hkb hb hes
    have hp := hes p (List.mem_cons_self p rest)
    have hprest : ∀ q ∈ rest, goodEntry q ∧ q.2 ≠ "" :=
      fun q hq => hes q (List.mem_cons_of_mem p hq)
    have hpbody := goodEntry_body p.1 p.2 hp.1 hp.2
    show (k, commitBody (pySplit b)) ::
      entriesOf (pyStrip p.1) (collectLines (pySplit p.2 ++ [""]))
        (rest.map fun q => (q.1, pySplit q.2 ++ [""])) = (k, b) :: p :: rest
    rw [(goodEntry_body k b hkb hb).2.2, collectLines_good _ hpbody.2.1,
      hp.1.1, ih p.1 p.2 hp.1 hp.2 hprest]

theorem pySplit_empty : pySplit "" = [""] := rfl

theorem reconstruct_tail_lines : ∀ (es : List (String × String)),
    (∀ p ∈ es, goodEntry p ∧ p.2 ≠ "") →
    (((es.map fun p => [p.1, pyStrip p.2, ""]).flatten).map pySplit).flatten =
      (es.map fun p => p.1 :: (pySplit p.2 ++ [""])).flatten := by
  intro es
  induction es with
  | nil => intro _; rfl
  | cons q rest ih =>
    intro hes
    have hq := hes q (List.mem_cons_self q rest)
    have hqb := goodEntry_body q.1 q.2 hq.1 hq.2
    rw [List.map_cons, List.flatten_cons, List.map_append,
      List.flatten_append, ih fun r hr => hes r (List.mem_cons_of_mem q hr),
      List.map_cons, List.flatten_cons]
    congr 1
    simp only [List.map_cons, List.map_nil, List.flatten_cons,
      List.flatten_nil, List.append_nil,
      pySplit_no_newline q.1 hq.1.2.2.2.1, hqb.1, pySplit_empty]
    simp [List.append_assoc]

theorem parse_reconstruct (es : List (String × String))
    (hgood : ∀ p ∈ es, goodEntry p) (hnodup : (dictKeys es).Nodup)
    (hne : ∀ p ∈ es, p.2 ≠ "") :
    parse_lesson_sections (reconstruct_content es) = es := by
  cases es with
  | nil => decide
  | cons p es' =>
    have hp : goodEntry p ∧ p.2 ≠ "" :=
      ⟨hgood p (List.mem_cons_self p es'), hne p (List.mem_cons_self p es')⟩
    have hes' : ∀ q ∈ es', goodEntry q ∧ q.2 ≠ "" := fun q hq =>
      ⟨hgood q (List.mem_cons_of_mem p hq), hne q (List.mem_cons_of_mem p hq)⟩
    have hpb := goodEntry_body p.1 p.2 hp.1 hp.2
    have hlines : pySplit (reconstruct_content (p :: es')) =
        p.1 :: ((pySplit p.2 ++ [""]) ++
          (es'.map fun q => q.1 :: (pySplit q.2 ++ [""])).flatten) := by
      unfold reconstruct_content
      rw [List.map_cons, List.flatten_cons, pySplit_joinNL _ (by simp),
        List.map_append, List.flatten_append, reconstruct_tail_lines es' hes']
      simp only [List.map_cons, List.map_nil, List.flatten_cons,
        List.flatten_nil, List.append_nil,
        pySplit_no_newline p.1 hp.1.2.2.2.1, hpb.1, pySplit_empty]
      simp [List.append_assoc]
    have hmain := parse_structured [] p.1 (pySplit p.2 ++ [""])
      (es'.map fun q => (q.1, pySplit q.2 ++ [""]))
      (reconstruct_content (p :: es'))
      (by
        rw [List.nil_append, List.map_map]
        exact hlines)
      (by simp)
      hp.1.2.2.1
      (by
        intro l hl
        rcases List.mem_append.mp hl with hl | hl
        · exact (hpb.2.1 l hl).2.2.1
        · have : l = "" := by simpa using hl
          rw [this]
          exact isHeaderLine_empty)
      (by
        intro q hq
        obtain ⟨r, hr, rfl⟩ := List.mem_map.mp hq
        have hrq := hes' r hr
        have hrb := goodEntry_body r.1 r.2 hrq.1 hrq.2
        refine ⟨hrq.1.2.2.1, ?_⟩
        intro l hl
        rcases List.mem_append.mp hl with hl | hl
        · exact (hrb.2.1 l hl).2.2.1
        · have : l = "" := by simpa using hl
          rw [this]
          exact isHeaderLine_empty)
      (by
        rw [List.map_map]
        have hmap : es'.map ((fun p => pyStrip p.1) ∘ fun q =>
            (q.1, pySplit q.2 ++ [""])) = es'.map Prod.fst :=
          List.map_congr_left fun r hr => (hes' r hr).1.1
        rw [hmap, hp.1.1]
        exact hnodup)
    rw [hmain, hp.1.1, collectLines_good _ hpb.2.1,
      entriesOf_rebuild es' p.1 p.2 hp.1 hp.2 hes']

/-! A pattern appearing inside a newline-join without containing the
newline itself must appear inside one of the joined pieces. -/

theorem prefix_of_prefix_append_cons (s x r : List Char) (c : Char)
    (hc : c ∉ s) (h : s <+: x ++ c :: r) : s <+: x := by
  induction x generalizing s with
  | nil =>
    rcases List.prefix_cons_iff.mp h with rfl | ⟨t, rfl, _⟩
    · exact List.nil_prefix
    · exact absurd (List.mem_cons_self c t) hc
  | cons a x' ih =>
    rcases List.prefix_cons_iff.mp h with rfl | ⟨t, rfl, ht⟩
    · exact List.nil_prefix
    · have : t <+: x' := ih t (fun hm => hc (List.mem_cons_of_mem a hm)) ht
      exact List.cons_prefix_cons.mpr ⟨rfl, this⟩

theorem infix_of_infix_append_cons (s x r : List Char) (c : Char)
    (hc : c ∉ s) (h : s <:+: x ++ c :: r) : s <:+: x ∨ s <:+: r := by
  induction x with
  | nil =>
    rcases List.infix_cons_iff.mp h with hpre | hinf
    · rcases List.prefix_cons_iff.mp hpre with rfl | ⟨t, rfl, _⟩
      · exact Or.inl List.nil_infix
      · exact absurd (List.mem_cons_self c t) hc
    · exact Or.inr hinf
  | cons a x' ih =>
    rcases List.infix_cons_iff.mp h with hpre | hinf
    · exact Or.inl (prefix_of_prefix_append_cons s (a :: x') r c hc hpre).isInfix
    · rcases ih hinf with hx | hr
      · exact Or.inl (List.infix_cons hx)
      · exact Or.inr hr

theorem infix_joinNL (s : List Char) (ls : List (List Char))
    (hnl : '\n' ∉ s) (hne : s ≠ []) (h : s <:+: joinNL ls) :
    ∃ l ∈ ls, s <:+: l := by
  induction ls with
  | nil =>
    rw [show joinNL [] = [] from rfl, List.infix_nil] at h
    exact absurd h hne
  | cons x rest ih =>
    cases rest with
    | nil => exact ⟨x, List.mem_cons_self x [], h⟩
    | cons y rest' =>
      rcases infix_of_infix_append_cons s x (joinNL (y :: rest')) '\n' hnl h
        with hx | hr
      · exact ⟨x, List.mem_cons_self x _, hx⟩
      · obtain ⟨l, hl, hsl⟩ := ih hr
        exact ⟨l, List.mem_cons_of_mem x hl, hsl⟩

/-! Small dict helpers used by the claim theorems. -/

theorem dictLookup_mem (m : List (String × String)) (k v : String)
    (h : dictLookup m k = some v) : (k, v) ∈ m := by
  unfold dictLookup at h
  cases hf : m.find? fun p => p.1 == k with
  | none => rw [hf] at h; simp at h
  | some p =>
    rw [hf] at h
    have hv : p.2 = v := by simpa using h
    have hpk := List.find?_some hf
    have hk : p.1 = k := beq_iff_eq.mp hpk
    have hm : p ∈ m := List.mem_of_find?_eq_some hf
    rw [← hk, ← hv]
    exact hm

theorem dictKeys_entriesOf : ∀ (secs : List (String × List String))
    (k : String) (cont : List String),
    (match secs.getLast? with
     | none => cont ≠ []
     | some p => collectLines p.2 ≠ []) →
    dictKeys (entriesOf k cont secs) =
      k :: secs.map fun p => pyStrip p.1 := by
  intro secs
  induction secs with
  | nil =>
    intro k cont hc
    have hc' : cont ≠ [] := hc
    have h1 : cont.isEmpty = false := by
      cases cont with
      | nil => exact absurd rfl hc'
      | cons x t => rfl
    show dictKeys (if cont.isEmpty then [] else [(k, commitBody cont)]) = [k]
    rw [h1, if_neg Bool.false_ne_true]
    rfl
  | cons sec rest ih =>
    intro k cont hc
    obtain ⟨hd, blk⟩ := sec
    show dictKeys ((k, commitBody cont) ::
      entriesOf (pyStrip hd) (collectLines blk) rest) = _
    have hnext : (match rest.getLast? with
        | none => collectLines blk ≠ []
        | some p => collectLines p.2 ≠ []) := by
      cases rest with
      | nil => exact hc
      | cons q rest' => exact hc
    show k :: dictKeys (entriesOf (pyStrip hd) (collectLines blk) rest) = _
    rw [ih (pyStrip hd) (collectLines blk) hnext]
    rfl

/-! Claim theorems. -/

/-- C1: parsing the concrete two-section input yields a map with exactly
two entries, in order: "Overview:" mapped to the single content line and
"Learning Objectives:" mapped to the two content lines joined by a single
newline. -/
theorem c1_concrete_two_sections :
    parse_lesson_sections
      "Overview:\nThis lesson teaches fractions.\n\nLearning Objectives:\nStudents will add fractions.\nStudents will subtract fractions.\n" =
    [("Overview:", "This lesson teaches fractions."),
     ("Learning Objectives:",
      "Students will add fractions.\nStudents will subtract fractions.")] := by
  decide

/-- Boolean predicate used to state C2's hypothesis: `t` has some line
containing the substring `s` that is followed, later in the text, by at
least one non-blank line. -/
def headerFollowed (t s : String) : Bool :=
  (pySplit t).tails.any fun tl =>
    match tl with
    | [] => false
    | l :: rest => containsSub s.data l.data && rest.any fun m => pyStrip m != ""

/-- C2 counterexample: this input contains all nine header strings, each on
a line followed by a non-blank line, yet the parse has only eight entries,
because the first line contains two header substrings at once and so yields
a single section. -/
theorem c2_counterexample :
    (∀ s ∈ HEADERS, headerFollowed
      "Overview: Learning Objectives:\na\nRequired Materials:\nb\nPreparation Steps:\nc\nLesson Procedure:\nd\nExtensions and Modifications:\ne\nAssessment Criteria:\nf\nSafety Considerations:\ng\nTake-Home Connection:\nh" s = true) ∧
    (parse_lesson_sections
      "Overview: Learning Objectives:\na\nRequired Materials:\nb\nPreparation Steps:\nc\nLesson Procedure:\nd\nExtensions and Modifications:\ne\nAssessment Criteria:\nf\nSafety Considerations:\ng\nTake-Home Connection:\nh").length ≠ 9 :=
  ⟨by decide, by decide⟩

/-- C2 (amended): if the lines of the input that contain a header
substring are exactly nine lines, which together contain all nine fixed
headers, whose trimmed forms are pairwise distinct, and the last of which
is followed by at least one non-blank non-header line, then the parse has
exactly nine entries whose keys are the trimmed header lines in input
order. -/
theorem c2_nine_sections (t : String) (pre : List String)
    (secs : List (String × List String))
    (ht : pySplit t = pre ++ (secs.map fun p => p.1 :: p.2).flatten)
    (hpre : ∀ l ∈ pre, isHeaderLine l = false)
    (hsecs : ∀ p ∈ secs,
      isHeaderLine p.1 = true ∧ ∀ l ∈ p.2, isHeaderLine l = false)
    (hnodup : (secs.map fun p => pyStrip p.1).Nodup)
    (hnine : secs.length = 9)
    (hall : ∀ s ∈ HEADERS, ∃ p ∈ secs, containsSub s.data p.1.data = true)
    (hlast : match secs.getLast? with
             | none => False
             | some p => collectLines p.2 ≠ []) :
    (parse_lesson_sections t).length = 9 ∧
    dictKeys (parse_lesson_sections t) = secs.map fun p => pyStrip p.1 := by
  cases secs with
  | nil => simp at hnine
  | cons sec rest =>
    obtain ⟨hd1, blk1⟩ := sec
    have hparse := parse_structured pre hd1 blk1 rest t
      (by
        rw [ht, List.map_cons, List.flatten_cons, List.cons_append])
      hpre
      (hsecs _ (List.mem_cons_self _ _)).1
      (hsecs _ (List.mem_cons_self _ _)).2
      (fun p hp => hsecs p (List.mem_cons_of_mem _ hp))
      (by simpa using hnodup)
    have hlast' : (match rest.getLast? with
        | none => collectLines blk1 ≠ []
        | some p => collectLines p.2 ≠ []) := by
      cases rest with
      | nil => exact hlast
      | cons q rest' => exact hlast
    have hkeys : dictKeys (parse_lesson_sections t) =
        pyStrip hd1 :: rest.map fun p => pyStrip p.1 := by
      rw [hparse]
      exact dictKeys_entriesOf rest (pyStrip hd1) (collectLines blk1) hlast'
    constructor
    · have hlen : (dictKeys (parse_lesson_sections t)).length =
          (parse_lesson_sections t).length := List.length_map _ _
      rw [← hlen, hkeys]
      simp only [List.length_cons, List.length_map]
      simpa using hnine
    · rw [hkeys, List.map_cons]

/-- C2 witness: the canonical nine-section document satisfies the
hypotheses of the amended claim. -/
theorem c2_nine_sections_witness :
    (parse_lesson_sections
      "Overview:\na\nLearning Objectives:\nb\nRequired Materials:\nc\nPreparation Steps:\nd\nLesson Procedure:\ne\nExtensions and Modifications:\nf\nAssessment Criteria:\ng\nSafety Considerations:\nh\nTake-Home Connection:\ni").length = 9 ∧
    dictKeys (parse_lesson_sections
      "Overview:\na\nLearning Objectives:\nb\nRequired Materials:\nc\nPreparation Steps:\nd\nLesson Procedure:\ne\nExtensions and Modifications:\nf\nAssessment Criteria:\ng\nSafety Considerations:\nh\nTake-Home Connection:\ni") =
      ([("Overview:", ["a"]), ("Learning Objectives:", ["b"]),
        ("Required Materials:", ["c"]), ("Preparation Steps:", ["d"]),
        ("Lesson Procedure:", ["e"]),
        ("Extensions and Modifications:", ["f"]),
        ("Assessment Criteria:", ["g"]), ("Safety Considerations:", ["h"]),
        ("Take-Home Connection:", ["i"])].map fun p => pyStrip p.1) :=
  c2_nine_sections
    "Overview:\na\nLearning Objectives:\nb\nRequired Materials:\nc\nPreparation Steps:\nd\nLesson Procedure:\ne\nExtensions and Modifications:\nf\nAssessment Criteria:\ng\nSafety Considerations:\nh\nTake-Home Connection:\ni"
    []
    [("Overview:", ["a"]), ("Learning Objectives:", ["b"]),
     ("Required Materials:", ["c"]), ("Preparation Steps:", ["d"]),
     ("Lesson Procedure:", ["e"]), ("Extensions and Modifications:", ["f"]),
     ("Assessment Criteria:", ["g"]), ("Safety Considerations:", ["h"]),
     ("Take-Home Connection:", ["i"])]
    (by decide) (by decide) (by decide) (by decide) (by decide) (by decide)
    (show collectLines ["i"] ≠ [] by decide)

/-- C3 counterexample: a header line ("Overview:") with no non-blank
content before the next header line does appear as a key, with an empty
body, because the mid-scan commit has no non-empty-content guard. -/
theorem c3_counterexample :
    parse_lesson_sections "Overview:\nLearning Objectives:\nfoo" =
      [("Overview:", ""), ("Learning Objectives:", "foo")] := by
  decide

/-- C3 (amended): a header line that is the only header line of the input
and is followed by no non-blank content before end of input does not
appear in the result: the parse is empty.  (A header followed by a later
header line does appear, with an empty body, per the counterexample.)  In
particular "Random preamble text\nOverview:\n" parses to the empty map. -/
theorem c3_trailing_header_dropped (t : String) (pre post : List String)
    (hd : String) (ht : pySplit t = pre ++ hd :: post)
    (hpre : ∀ l ∈ pre, isHeaderLine l = false)
    (hhd : isHeaderLine hd = true)
    (hpost : ∀ l ∈ post, pyStrip l = "") :
    parse_lesson_sections t = [] := by
  unfold parse_lesson_sections
  have hpost' : ∀ l ∈ post, isHeaderLine l = false := fun l hl =>
    not_header_of_strip_empty l (hpost l hl)
  rw [ht, List.foldl_append, foldl_no_current pre [] [] hpre, List.foldl_cons,
    parseLine_header _ hd hhd, show commitCurrent ⟨[], none, []⟩ = [] from rfl,
    foldl_block post [] (pyStrip hd) [] (pyStrip_ne_empty_of_header hd hhd)
      hpost']
  have hcoll : collectLines post = [] := by
    unfold collectLines
    rw [List.filter_eq_nil_iff.mpr fun a ha => by
      rw [hpost a ha]
      simp]
    rfl
  rw [hcoll]
  simp [parseFinish]

/-- C3 witness: the concrete scenario of the claim. -/
theorem c3_trailing_header_dropped_witness :
    parse_lesson_sections "Random preamble text\nOverview:\n" = [] :=
  c3_trailing_header_dropped "Random preamble text\nOverview:\n"
    ["Random preamble text"] [""] "Overview:" (by decide) (by decide)
    (by decide) (by decide)

/-- C4: if no line of the input contains any of the nine header
substrings, the parse is the empty map (and, the embedding being a total
function, no exception is possible). -/
theorem c4_no_header_empty (t : String)
    (h : ∀ l ∈ pySplit t, isHeaderLine l = false) :
    parse_lesson_sections t = [] := by
  unfold parse_lesson_sections
  rw [foldl_no_current (pySplit t) [] [] h]
  rfl

/-- C4 witness: header-free text parses to the empty map. -/
theorem c4_no_header_empty_witness :
    parse_lesson_sections "just some text\nwith no recognized labels\n" = [] :=
  c4_no_header_empty "just some text\nwith no recognized labels\n" (by decide)

/-- C5: header detection is by substring containment: any line containing
a header substring, even mid-sentence, starts a new section labelled by
the whole trimmed line, and all lines before the first such line are
dropped.  The parse of the whole input equals the run of the machine that
starts right after that line with the trimmed line as active label and no
accumulated content. -/
theorem c5_substring_match (t : String) (pre rest : List String) (l : String)
    (ht : pySplit t = pre ++ l :: rest)
    (hpre : ∀ x ∈ pre, isHeaderLine x = false)
    (hl : isHeaderLine l = true) :
    parse_lesson_sections t =
      parseFinish (rest.foldl parseLine ⟨[], some (pyStrip l), []⟩) := by
  unfold parse_lesson_sections
  rw [ht, List.foldl_append, foldl_no_current pre [] [] hpre, List.foldl_cons,
    parseLine_header _ l hl, show commitCurrent ⟨[], none, []⟩ = [] from rfl]

/-- C5 witness: the line "See the Overview: below" is treated as a header
line; with it preceded by a dropped preamble, the parse is a single
section labelled by that whole line. -/
theorem c5_substring_match_witness :
    isHeaderLine "See the Overview: below" = true ∧
    parse_lesson_sections
      "Random preamble\nSee the Overview: below\ncontent x" =
      [("See the Overview: below", "content x")] := by
  constructor
  · decide
  · rw [c5_substring_match
      "Random preamble\nSee the Overview: below\ncontent x"
      ["Random preamble"] ["content x"] "See the Overview: below"
      (by decide) (by decide) (by decide)]
    decide
/-- C6 counterexample: an entry whose body is empty (produced by a header
immediately followed by another header) and that sits last in the map is
dropped by serialize-then-reparse, so the keys are not preserved. -/
theorem c6_counterexample :
    parse_lesson_sections "Overview:\nx\nLearning Objectives:\nOverview:\ny" =
      [("Overview:", "y"), ("Learning Objectives:", "")] ∧
    parse_lesson_sections (reconstruct_content (parse_lesson_sections
      "Overview:\nx\nLearning Objectives:\nOverview:\ny")) =
      [("Overview:", "y")] :=
  ⟨by decide, by decide⟩

/-- C6 (amended): for every input whose parse contains no empty body,
serializing the parsed map as the edit view does and parsing again yields
the identical map: same keys, same order, identical bodies; hence every
further round trip is also the identity. -/
theorem c6_round_trip (t : String)
    (h : ∀ p ∈ parse_lesson_sections t, p.2 ≠ "") :
    parse_lesson_sections (reconstruct_content (parse_lesson_sections t)) =
      parse_lesson_sections t :=
  parse_reconstruct (parse_lesson_sections t) (parse_good t).1
    (parse_good t).2 h

/-- C6 witness: a two-section document with non-empty bodies round-trips
to the identical map. -/
theorem c6_round_trip_witness :
    parse_lesson_sections (reconstruct_content (parse_lesson_sections
      "Overview:\nAn intro.\n\nLearning Objectives:\nGoal one.\nGoal two.")) =
      parse_lesson_sections
        "Overview:\nAn intro.\n\nLearning Objectives:\nGoal one.\nGoal two." :=
  c6_round_trip
    "Overview:\nAn intro.\n\nLearning Objectives:\nGoal one.\nGoal two."
    (by decide)

/-- C7 counterexample: the same trimmed header line "Overview:" occurs
twice, but the later occurrence is the last line of the input and is
followed by no content, so the final commit's non-empty-content guard
skips it and the single "Overview:" entry keeps the body "x" of the FIRST
occurrence — the later occurrence's body does not replace the earlier
one's. -/
theorem c7_counterexample :
    parse_lesson_sections "Overview:\nx\nLearning Objectives:\ny\nOverview:" =
      [("Overview:", "x"), ("Learning Objectives:", "y")] := by
  decide

/-- C7 (amended): the key list of every parse is duplicate-free (a label
keeps a single entry), and when the same trimmed header line occurs twice,
with a different header between the occurrences and with the later
occurrence followed by at least one non-blank content line, the resulting
map keeps the duplicated label at the position of its first occurrence
while its body comes from the last occurrence.  (A trailing duplicate with
no following content is never committed and the earlier body survives,
per the counterexample.) -/
theorem c7_duplicate_label (t : String) (hd g hd2 : String)
    (b1 b2 b3 : List String)
    (ht : pySplit t = hd :: (b1 ++ g :: (b2 ++ hd2 :: b3)))
    (hhd : isHeaderLine hd = true) (hg : isHeaderLine g = true)
    (hhd2 : isHeaderLine hd2 = true)
    (hb1 : ∀ l ∈ b1, isHeaderLine l = false)
    (hb2 : ∀ l ∈ b2, isHeaderLine l = false)
    (hb3 : ∀ l ∈ b3, isHeaderLine l = false)
    (hsame : pyStrip hd2 = pyStrip hd)
    (hdiff : pyStrip g ≠ pyStrip hd)
    (hb3ne : collectLines b3 ≠ []) :
    (∀ u : String, (dictKeys (parse_lesson_sections u)).Nodup) ∧
    parse_lesson_sections t =
      [(pyStrip hd, commitBody (collectLines b3)),
       (pyStrip g, commitBody (collectLines b2))] := by
  refine ⟨fun u => (parse_good u).2, ?_⟩
  have hhdne : pyStrip hd ≠ "" := pyStrip_ne_empty_of_header hd hhd
  have hgne : pyStrip g ≠ "" := pyStrip_ne_empty_of_header g hg
  unfold parse_lesson_sections
  rw [ht, List.foldl_cons, parseLine_header _ hd hhd,
    show commitCurrent ⟨[], none, []⟩ = [] from rfl,
    List.foldl_append, foldl_block b1 [] (pyStrip hd) [] hhdne hb1,
    List.nil_append, List.foldl_cons, parseLine_header _ g hg,
    commitCurrent_some [] (pyStrip hd) (collectLines b1) hhdne,
    dictInsert_fresh [] (pyStrip hd) _ (by simp [dictKeys]),
    List.nil_append, List.foldl_append,
    foldl_block b2 _ (pyStrip g) [] hgne hb2, List.nil_append,
    List.foldl_cons, parseLine_header _ hd2 hhd2,
    commitCurrent_some _ (pyStrip g) (collectLines b2) hgne,
    dictInsert_fresh [(pyStrip hd, commitBody (collectLines b1))]
      (pyStrip g) _ (by simp [dictKeys]; exact hdiff),
    hsame, foldl_block b3 _ (pyStrip hd) [] hhdne hb3, List.nil_append]
  have hisem : (collectLines b3).isEmpty = false := by
    cases h3 : collectLines b3 with
    | nil => exact absurd h3 hb3ne
    | cons x xs => rfl
  show (if pyStrip hd != "" && !(collectLines b3).isEmpty then
      dictInsert _ (pyStrip hd) (commitBody (collectLines b3)) else _) = _
  rw [if_pos (by simp [bne_iff_ne, hhdne, hisem])]
  rw [dictInsert_keys_of_mem _ _ _ (by simp [dictKeys])]
  have h1 : ((pyStrip hd == pyStrip hd) : Bool) = true := beq_self_eq_true _
  have h2 : ((pyStrip g == pyStrip hd) : Bool) = false :=
    beq_eq_false_iff_ne.mpr hdiff
  rw [show ([(pyStrip hd, commitBody (collectLines b1))] ++
      [(pyStrip g, commitBody (collectLines b2))]) =
      [(pyStrip hd, commitBody (collectLines b1)),
       (pyStrip g, commitBody (collectLines b2))] from rfl]
  simp only [List.map_cons, List.map_nil, h1, h2, if_pos, if_neg,
    Bool.false_eq_true, not_false_eq_true, if_true, if_false]

/-- C7 witness: "Overview:" occurs twice (second time with leading
whitespace, trimming to the same label); the map keeps one entry for it,
first in order, with the body of the second occurrence. -/
theorem c7_duplicate_label_witness :
    (∀ u : String, (dictKeys (parse_lesson_sections u)).Nodup) ∧
    parse_lesson_sections
      "Overview:\nx\nLearning Objectives:\ny\n Overview:\nz" =
      [("Overview:", "z"), ("Learning Objectives:", "y")] := by
  have h := c7_duplicate_label
    "Overview:\nx\nLearning Objectives:\ny\n Overview:\nz"
    "Overview:" "Learning Objectives:" " Overview:" ["x"] ["y"] ["z"]
    (by decide) (by decide) (by decide) (by decide) (by decide) (by decide)
    (by decide) (by decide) (by decide) (by decide)
  refine ⟨h.1, ?_⟩
  rw [h.2]
  decide

/-- C8 counterexample: the input has a blank line, and the entry
("Overview:", "") produced by the guardless mid-scan commit has the empty
body, whose line decomposition is the single blank line; so a blank line
of the input does appear as a line of a body. -/
theorem c8_counterexample :
    parse_lesson_sections "Overview:\n\nLearning Objectives:\nx" =
      [("Overview:", ""), ("Learning Objectives:", "x")] ∧
    "" ∈ pySplit "Overview:\n\nLearning Objectives:\nx" ∧
    "" ∈ pySplit "" ∧ pyStrip "" = "" :=
  ⟨by decide, by decide, by decide, rfl⟩

/-- C8 (amended): in every parse, no body contains (as a substring) the
header line that keys it; and every entry with a non-empty body splits
into lines none of which is blank.  (An empty-bodied entry, whose line
decomposition is one blank line, is possible, per the counterexample.) -/
theorem c8_body_invariants (t : String) (p : String × String)
    (hp : p ∈ parse_lesson_sections t) :
    ¬ (p.1.data <:+: p.2.data) ∧
    (p.2 ≠ "" → ∀ l ∈ pySplit p.2, pyStrip l ≠ "") := by
  have hg := (parse_good t).1 p hp
  constructor
  · intro hinf
    obtain ⟨s, hs, hsk⟩ := (isHeaderLine_iff p.1).mp hg.2.2.1
    have hsb : s.data <:+: p.2.data := hsk.trans hinf
    obtain ⟨hne, hnl, _, _⟩ := headers_facts s hs
    rcases hg.2.2.2.2 with hb | ⟨ls, hlsne, hlsgood, hbeq⟩
    · rw [hb] at hsb
      exact hne (List.infix_nil.mp hsb)
    · rw [hbeq] at hsb
      have hjoin : s.data <:+: joinNL (ls.map String.data) := hsb
      obtain ⟨l, hl, hsl⟩ := infix_joinNL s.data _ hnl hne hjoin
      obtain ⟨l0, hl0, rfl⟩ := List.mem_map.mp hl
      have hhd : isHeaderLine l0 = true :=
        (isHeaderLine_iff l0).mpr ⟨s, hs, hsl⟩
      rw [(hlsgood l0 hl0).2.2.1] at hhd
      exact absurd hhd (by simp)
  · intro hne2 l hl
    rcases hg.2.2.2.2 with hb | ⟨ls, hlsne, hlsgood, hbeq⟩
    · exact absurd hb hne2
    · rw [hbeq, goodBody_split ls hlsne hlsgood] at hl
      have hgl := hlsgood l hl
      rw [hgl.1]
      exact hgl.2.1

/-- C8 witness: a two-line body neither contains its header line nor any
blank line. -/
theorem c8_body_invariants_witness :
    ("Overview:", "line one\nline two") ∈
      parse_lesson_sections "Overview:\nline one\nline two" ∧
    (¬ ("Overview:".data <:+: "line one\nline two".data) ∧
     ("line one\nline two" ≠ "" →
       ∀ l ∈ pySplit "line one\nline two", pyStrip l ≠ "")) :=
  ⟨by decide,
   c8_body_invariants "Overview:\nline one\nline two"
     ("Overview:", "line one\nline two") (by decide)⟩

/-- C9: in every parse, every key is its own trimmed form and contains a
header substring, and every non-empty body splits into lines that are
non-blank, equal to their own trimmed form, and free of the nine header
substrings. -/
theorem c9_shape (t : String) (p : String × String)
    (hp : p ∈ parse_lesson_sections t) :
    (pyStrip p.1 = p.1 ∧ isHeaderLine p.1 = true) ∧
    (p.2 ≠ "" → ∀ l ∈ pySplit p.2,
      l ≠ "" ∧ pyStrip l = l ∧ isHeaderLine l = false) := by
  have hg := (parse_good t).1 p hp
  refine ⟨⟨hg.1, hg.2.2.1⟩, ?_⟩
  intro hne l hl
  rcases hg.2.2.2.2 with hb | ⟨ls, hlsne, hlsgood, hbeq⟩
  · exact absurd hb hne
  · rw [hbeq, goodBody_split ls hlsne hlsgood] at hl
    have hgl := hlsgood l hl
    exact ⟨hgl.2.1, hgl.1, hgl.2.2.1⟩

/-- C9 witness: a body with lines that had surrounding whitespace in the
input is stored in trimmed, non-blank, header-free form. -/
theorem c9_shape_witness :
    ("Learning Objectives:", "goal A\ngoal B") ∈
      parse_lesson_sections "Learning Objectives:\n  goal A  \ngoal B" ∧
    ((pyStrip "Learning Objectives:" = "Learning Objectives:" ∧
      isHeaderLine "Learning Objectives:" = true) ∧
     ("goal A\ngoal B" ≠ "" → ∀ l ∈ pySplit "goal A\ngoal B",
       l ≠ "" ∧ pyStrip l = l ∧ isHeaderLine l = false)) :=
  ⟨by decide,
   c9_shape "Learning Objectives:\n  goal A  \ngoal B"
     ("Learning Objectives:", "goal A\ngoal B") (by decide)⟩

/-- C10: initialize_project_structure leaves the milestone list unchanged
when the content field is absent or the parsed map has no
"Lesson Procedure:" key; when the key is present it replaces the list with
one record per non-blank line of the section body, in order, each carrying
that line as its step, completed false, and empty evidence and
reflection. -/
theorem c10_milestones (m : List Milestone) (c : String) :
    initialize_project_structure none m = m ∧
    (dictLookup (parse_lesson_sections c) "Lesson Procedure:" = none →
      initialize_project_structure (some c) m = m) ∧
    ∀ b, dictLookup (parse_lesson_sections c) "Lesson Procedure:" = some b →
      initialize_project_structure (some c) m =
        ((pySplit b).filter fun l => pyStrip l != "").map
          fun l => ⟨l, false, "", ""⟩ := by
  refine ⟨rfl, ?_, ?_⟩
  · intro h
    simp only [initialize_project_structure, h]
  · intro b hb
    have hmem := dictLookup_mem _ _ _ hb
    have hg := (parse_good c).1 _ hmem
    by_cases hbe : b = ""
    · subst hbe
      simp only [initialize_project_structure, hb]
      rw [show ((pySplit "").filter fun l => pyStrip l != "") = []
        from by decide]
      rfl
    · have hbody := goodEntry_body "Lesson Procedure:" b hg hbe
      simp only [initialize_project_structure, hb]
      rw [List.map_map]
      apply List.map_congr_left
      intro l hl
      have hlb : l ∈ pySplit b := List.mem_of_mem_filter hl
      have hgl := hbody.2.1 l hlb
      show (⟨pyStrip l, false, "", ""⟩ : Milestone) = ⟨l, false, "", ""⟩
      rw [hgl.1]

/-- C10 witness: a lesson with a procedure section initializes one
milestone per non-blank procedure line, replacing the previous list;
without content the list is unchanged. -/
theorem c10_milestones_witness :
    initialize_project_structure
      (some "Lesson Procedure:\nstep one\n\nstep two")
      [⟨"old", true, "e", "r"⟩] =
      [⟨"step one", false, "", ""⟩, ⟨"step two", false, "", ""⟩] ∧
    initialize_project_structure none [⟨"old", true, "e", "r"⟩] =
      [⟨"old", true, "e", "r"⟩] := by
  constructor
  · rw [(c10_milestones [⟨"old", true, "e", "r"⟩]
      "Lesson Procedure:\nstep one\n\nstep two").2.2
      "step one\nstep two" (by decide)]
    decide
  · exact (c10_milestones [⟨"old", true, "e", "r"⟩] "").1
